import Mathlib

/-!
Verification of the chord-recognition engine of the kanata fork
(`src/parser/src/trie.rs` and `src/src/kanata/output_logic/zipchord.rs`).

The Rust `Trie` wraps `patricia_tree::map::PatriciaMap<T>` over byte keys
obtained by `bytemuck::cast_slice` from `Vec<u16>` keys.  The patricia map is
modelled as an association list of byte keys kept in lexicographic order (the
iteration order of a patricia trie), with the operations the wrapper calls:
ordered insert-or-replace, iteration of the entries under a prefix,
longest-stored-key-that-is-a-prefix lookup, and longest-common-prefix length.

Machine integers (`u16` counters) are modelled as `Nat` with explicit
`% 65536` where the source wraps; `saturating_sub` is `Nat` subtraction.
-/

namespace Kanata

/-! ## Byte-packed key encoding (`bytemuck::cast_slice` on `&[u16]`) -/

/-- A trie key element is a fixed-width (16-bit) key code, modelled as `Nat`. -/
abbrev TrieKeyElement := Nat

/-- A trie key: an ordered sequence of fixed-width key codes.  (Written
`List Nat` directly — `TrieKeyElement` is definitionally `Nat`.) -/
abbrev TrieKey := List Nat

/-- The two bytes of one 16-bit code, little-endian, as produced by
`cast_slice` on a little-endian target. -/
def u16Bytes (x : Nat) : List Nat := [x % 256, x / 256 % 256]

/-- `cast_slice`: the byte view of a `u16` key. -/
def castSlice (k : TrieKey) : List Nat := k.flatMap u16Bytes

/-- `key_len` from `trie.rs`: the byte length of a key is twice its element
count. -/
def key_len (k : TrieKey) : Nat := k.length * 2

/-- All elements of a key fit in 16 bits (the Rust key type is `Vec<u16>`). -/
abbrev U16Key (k : TrieKey) : Prop := ∀ x ∈ k, x < 65536

/-! ## Model of `patricia_tree::map::PatriciaMap` over byte keys -/

/-- Boolean prefix test on byte lists. -/
def isPrefixB : List Nat → List Nat → Bool
  | [], _ => true
  | _ :: _, [] => false
  | a :: as, b :: bs => a = b && isPrefixB as bs

/-- Length of the longest common prefix of two byte lists. -/
def lcpLen : List Nat → List Nat → Nat
  | a :: as, b :: bs => if a = b then lcpLen as bs + 1 else 0
  | _, _ => 0

/-- Strict lexicographic order on byte lists: the order in which a patricia
trie stores and iterates its keys. -/
def keyLtB : List Nat → List Nat → Bool
  | [], [] => false
  | [], _ :: _ => true
  | _ :: _, [] => false
  | a :: as, b :: bs => a < b || (a = b && keyLtB as bs)

/-- The patricia map: an association list of byte keys, kept sorted in
lexicographic order with no duplicate keys. -/
abbrev PatMap (T : Type) := List (List Nat × T)

/-- `PatriciaMap::insert`: ordered insert, replacing the value when the key
is already present. -/
def patInsert {T : Type} : PatMap T → List Nat → T → PatMap T
  | [], k, v => [(k, v)]
  | (k', v') :: rest, k, v =>
    if k = k' then (k, v) :: rest
    else if keyLtB k k' then (k, v) :: (k', v') :: rest
    else (k', v') :: patInsert rest k v

/-- `PatriciaMap::iter_prefix`: the entries whose keys start with the given
byte key, in storage order. -/
def patEntriesUnder {T : Type} (m : PatMap T) (bk : List Nat) : PatMap T :=
  m.filter (fun e => isPrefixB bk e.1)

/-- `PatriciaMap::get_longest_common_prefix`: the entry whose key is the
longest stored key that is a prefix of the given byte key. -/
def patGetLCP {T : Type} (m : PatMap T) (bk : List Nat) : Option (List Nat × T) :=
  m.foldl
    (fun acc e =>
      if isPrefixB e.1 bk then
        match acc with
        | none => some e
        | some b => if b.1.length ≤ e.1.length then some e else some b
      else acc)
    none

/-- `PatriciaMap::longest_common_prefix_len`: the length of the longest
common prefix between the given byte key and the stored keys. -/
def patLcpLen {T : Type} (m : PatMap T) (bk : List Nat) : Nat :=
  m.foldl (fun acc e => max acc (lcpLen bk e.1)) 0

/-! ## `Trie<T>` (`src/parser/src/trie.rs`) -/

/-- `Trie<T>`: wrapper around the patricia map, keyed by `u16` sequences.
(The field type is `PatMap T`, written out literally so that `Trie` can
occur nested in the inductive type `ZchChordOutput` below.) -/
structure Trie (T : Type) where
  inner : List (List Nat × T)

/-- `GetOrDescendentExistsResult` (spelling as in the source). -/
inductive GetOrDescendentExistsResult (T : Type) where
  | NotInTrie
  | InTrie
  | HasValue (v : T)
  deriving DecidableEq

namespace Trie

/-- `Trie::new`. -/
def new {T : Type} : Trie T := ⟨[]⟩

/-- `Trie::is_empty` (used via `ZchPossibleChords::is_empty`). -/
def is_empty {T : Type} (t : Trie T) : Bool := t.inner.isEmpty

/-- `Trie::insert`. -/
def insert {T : Type} (t : Trie T) (key : TrieKey) (val : T) : Trie T :=
  ⟨patInsert t.inner (castSlice key) val⟩

/-- `Trie::ancestor_exists`. -/
def ancestor_exists {T : Type} (t : Trie T) (key : TrieKey) : Bool :=
  (patGetLCP t.inner (castSlice key)).isSome

/-- `Trie::descendant_exists`. -/
def descendant_exists {T : Type} (t : Trie T) (key : TrieKey) : Bool :=
  patLcpLen t.inner (castSlice key) = key_len key

/-- `Trie::get_or_descendant_exists`. -/
def get_or_descendant_exists {T : Type} (t : Trie T) (key : TrieKey) :
    GetOrDescendentExistsResult T :=
  match (patEntriesUnder t.inner (castSlice key)).head? with
  | none => .NotInTrie
  | some descendant =>
    if descendant.1.length = key_len key then .HasValue descendant.2
    else .InTrie

end Trie

/-! ## Zipchord data model (`src/src/kanata/output_logic/zipchord.rs`) -/

/-- `OsCode`: an opaque key identifier, convertible to the `u16` trie code. -/
abbrev OsCode := Nat

/-- `OsCode::into::<u16>()`. -/
def oscToU16 (osc : OsCode) : Nat := osc % 65536

/-- `ZchChordOutput`: output text plus an optional nested table of
follow-up chords (the `Arc<ZchPossibleChords>` of the source; the
single-field `ZchPossibleChords` wrapper is represented directly by the
trie it wraps, see `ZchPossibleChords` below). -/
inductive ZchChordOutput : Type where
  | mk : String → Option (Trie ZchChordOutput) → ZchChordOutput

/-- `ZchPossibleChords`: all possible chords, a `Trie<ZchChordOutput>`. -/
structure ZchPossibleChords where
  trie : Trie ZchChordOutput

/-- The `zch_output` field of `ZchChordOutput`. -/
def ZchChordOutput.zch_output : ZchChordOutput → String
  | ⟨out, _⟩ => out

/-- The `zch_followups` field of `ZchChordOutput`. -/
def ZchChordOutput.zch_followups : ZchChordOutput → Option ZchPossibleChords
  | ⟨_, f⟩ => f.map ZchPossibleChords.mk

/-- `ZchPossibleChords::is_empty`. -/
def ZchPossibleChords.is_empty (c : ZchPossibleChords) : Bool :=
  c.trie.is_empty

/-- `ZchSortedChord`: key codes sorted by a consistent (ascending) order. -/
structure ZchSortedChord where
  zch_keys : List Nat
  deriving DecidableEq

/-- The linear equivalent of `Vec::binary_search` followed by `Vec::insert`:
on a sorted list, insert `key` at its sorted position, doing nothing when it
is already present (`Ok(_pos) => {}` in the source). -/
def sortedInsert : List Nat → Nat → List Nat
  | [], key => [key]
  | x :: xs, key =>
    if key < x then key :: x :: xs
    else if key = x then x :: xs
    else x :: sortedInsert xs key

/-- `ZchSortedChord::zch_insert`. -/
def ZchSortedChord.zch_insert (c : ZchSortedChord) (key : Nat) : ZchSortedChord :=
  ⟨sortedInsert c.zch_keys key⟩

/-- `ZchSortedInputs`: tracks current input in canonical order. -/
structure ZchSortedInputs where
  zch_inputs : ZchSortedChord
  deriving DecidableEq

/-- `ZchSortedInputs::zchsi_insert`. -/
def ZchSortedInputs.zchsi_insert (s : ZchSortedInputs) (osc : OsCode) : ZchSortedInputs :=
  ⟨s.zch_inputs.zch_insert (oscToU16 osc)⟩

/-- `ZchEnabledState` (default `ZchEnabled`). -/
inductive ZchEnabledState where
  | ZchEnabled
  | ZchWaitEnable
  | ZchDisabled
  deriving DecidableEq

/-- `ZchDynamicState`.  The two tick counters are `u16` in the source; they
are modelled as `Nat` kept below `65536` by explicit wrapping where the
source can wrap. -/
structure ZchDynamicState where
  zchd_sorted_inputs : ZchSortedInputs
  zchd_enabled_state : ZchEnabledState
  zchd_prioritized_chords : Option ZchPossibleChords
  zchd_ticks_since_state_change : Nat
  zchd_ticks_until_enabled : Nat
  zchd_pressed_keys : Finset OsCode

/-- `ZchDynamicState::default()`. -/
def zchdDefault : ZchDynamicState :=
  ⟨⟨⟨[]⟩⟩, .ZchEnabled, none, 0, 0, ∅⟩

/-- `ZchConfig`. -/
structure ZchConfig where
  zch_cfg_ticks_wait_enable : Nat
  deriving DecidableEq

/-- `ZchConfig::default()`. -/
def zchConfigDefault : ZchConfig := ⟨50⟩

/-- `TICKS_UNTIL_FORCE_STATE_RESET` from `zchd_tick`. -/
def TICKS_UNTIL_FORCE_STATE_RESET : Nat := 10000

namespace ZchDynamicState

/-- `ZchDynamicState::zchd_is_disabled`. -/
def zchd_is_disabled (s : ZchDynamicState) : Bool :=
  s.zchd_enabled_state = ZchEnabledState.ZchDisabled

/-- `ZchDynamicState::zchd_reset`: clean up the state (the log line is an
external effect and not modelled). -/
def zchd_reset (s : ZchDynamicState) : ZchDynamicState :=
  { s with
    zchd_enabled_state := .ZchEnabled
    zchd_pressed_keys := ∅
    zchd_sorted_inputs := ⟨⟨[]⟩⟩
    zchd_prioritized_chords := none }

/-- `ZchDynamicState::zchd_tick`.  `+= 1` on the `u16` counter wraps at
`2^16`; `saturating_sub(1)` is `Nat` subtraction. -/
def zchd_tick (s : ZchDynamicState) : ZchDynamicState :=
  let s1 := { s with
    zchd_ticks_since_state_change := (s.zchd_ticks_since_state_change + 1) % 65536 }
  let s2 :=
    if s1.zchd_enabled_state = ZchEnabledState.ZchWaitEnable then
      let s' := { s1 with zchd_ticks_until_enabled := s1.zchd_ticks_until_enabled - 1 }
      if s'.zchd_ticks_until_enabled = 0 then
        { s' with zchd_enabled_state := .ZchEnabled }
      else s'
    else s1
  if s2.zchd_ticks_since_state_change > TICKS_UNTIL_FORCE_STATE_RESET then
    zchd_reset s2
  else s2

/-- `ZchDynamicState::zchd_state_change`. -/
def zchd_state_change (s : ZchDynamicState) (cfg : ZchConfig) : ZchDynamicState :=
  { s with
    zchd_ticks_since_state_change := 0
    zchd_ticks_until_enabled := cfg.zch_cfg_ticks_wait_enable }

/-- `ZchDynamicState::zchd_is_idle` (the trace log line is not modelled). -/
def zchd_is_idle (s : ZchDynamicState) : Bool :=
  s.zchd_enabled_state = ZchEnabledState.ZchEnabled ∧ s.zchd_pressed_keys = ∅

/-- `ZchDynamicState::zchd_press_key`. -/
def zchd_press_key (s : ZchDynamicState) (osc : OsCode) : ZchDynamicState :=
  { s with
    zchd_pressed_keys := insert osc s.zchd_pressed_keys
    zchd_sorted_inputs := s.zchd_sorted_inputs.zchsi_insert osc }

/-- `ZchDynamicState::zchd_release_key`. -/
def zchd_release_key (s : ZchDynamicState) (osc : OsCode) : ZchDynamicState :=
  let p := s.zchd_pressed_keys.erase osc
  { s with
    zchd_pressed_keys := p
    zchd_enabled_state :=
      if p = ∅ then ZchEnabledState.ZchWaitEnable else ZchEnabledState.ZchDisabled }

end ZchDynamicState

/-! ## Engine (`ZchState`) -/

/-- One event emitted through the key-injection capability (`KbdOut`):
a passed-through key press or release, a deletion (backspace-equivalent),
or typed output text.  The engine's interaction with `KbdOut` is modelled
as the list of emitted events; I/O errors of the capability are outside
the claims and not modelled. -/
inductive KbdEv where
  | press (osc : OsCode)
  | release (osc : OsCode)
  | del
  | text (s : String)
  deriving DecidableEq

/-- `ZchState`: dynamic state, the configured chords, and options. -/
structure ZchState where
  zchd : ZchDynamicState
  zch_chords : ZchPossibleChords
  zch_cfg : ZchConfig

/-- `ZchState::default()`. -/
def zchDefault : ZchState := ⟨zchdDefault, ⟨Trie.new⟩, zchConfigDefault⟩

namespace ZchState

/-- `ZchState::zch_release_key`. -/
def zch_release_key (s : ZchState) (osc : OsCode) : ZchState × List KbdEv :=
  if s.zch_chords.is_empty then (s, [KbdEv.release osc])
  else
    ({ s with zchd := (s.zchd.zchd_state_change s.zch_cfg).zchd_release_key osc },
     [KbdEv.release osc])

/-- `ZchState::zch_tick`. -/
def zch_tick (s : ZchState) : ZchState :=
  { s with zchd := s.zchd.zchd_tick }

/-- `ZchState::zch_is_idle`. -/
def zch_is_idle (s : ZchState) : Bool :=
  s.zchd.zchd_is_idle

/-- Modelled from the spec: whether a strictly longer completion is still
possible in `t` beyond the accumulated key — spec §4.2 rule 2's "no sibling
key extends this one".  An entry under the prefix scan of `k` that is
strictly longer than `k` witnesses a longer completion. -/
def longerCompletionPossible (t : Trie ZchChordOutput) (k : TrieKey) : Bool :=
  (patEntriesUnder t.inner (castSlice k)).any (fun e => key_len k < e.1.length)

/-- Modelled from the spec: the chord lookup of spec §4.2 rule 2 — "Query
the active follow-up table (if any) first, else the root Chord Table, via
`get_or_descendant_exists`", falling back to the root table when the active
follow-up table reports `NotPresent` ("`NotPresent` from both").  Returns
the query result together with the table it came from. -/
def zchLookup (root : ZchPossibleChords) (pri : Option ZchPossibleChords)
    (k : TrieKey) :
    GetOrDescendentExistsResult ZchChordOutput × Trie ZchChordOutput :=
  match pri with
  | none => (root.trie.get_or_descendant_exists k, root.trie)
  | some fu =>
    match fu.trie.get_or_descendant_exists k with
    | .NotInTrie => (root.trie.get_or_descendant_exists k, root.trie)
    | r => (r, fu.trie)

/-- Modelled from the spec: `ZchState::zch_press_key`.  In the source the
guard, the state-change and the key-recording calls are present, but the
chord-decision branch is an unimplemented `todo!()`; that branch is
modelled from spec §4.2 rule 2: on `NotPresent` transition to Disabled and
pass the key through; on an exact match with no longer completion possible,
activate — emit one deletion per key of the Canonical Chord Key, then the
matched output text, install the follow-up table (or clear it) and clear
the accumulator and pressed set; on an exact match with a longer completion
still possible, defer with no output; otherwise keep accumulating with no
output. -/
def zch_press_key (s : ZchState) (osc : OsCode) : ZchState × List KbdEv :=
  if s.zch_chords.is_empty || s.zchd.zchd_is_disabled then
    (s, [KbdEv.press osc])
  else
    let zchd := (s.zchd.zchd_state_change s.zch_cfg).zchd_press_key osc
    let k := zchd.zchd_sorted_inputs.zch_inputs.zch_keys
    match zchLookup s.zch_chords zchd.zchd_prioritized_chords k with
    | (.NotInTrie, _) =>
      ({ s with zchd := { zchd with zchd_enabled_state := .ZchDisabled } },
       [KbdEv.press osc])
    | (.HasValue out, tbl) =>
      if longerCompletionPossible tbl k then
        ({ s with zchd }, [])
      else
        ({ s with zchd := { zchd with
             zchd_prioritized_chords := out.zch_followups
             zchd_sorted_inputs := ⟨⟨[]⟩⟩
             zchd_pressed_keys := ∅ } },
         List.replicate k.length KbdEv.del ++ [KbdEv.text out.zch_output])
    | (.InTrie, _) =>
      ({ s with zchd }, [])

end ZchState

/-! ## Event sequences -/

/-- A physical key event fed to the engine. -/
inductive ZchEvent where
  | press (osc : OsCode)
  | release (osc : OsCode)
  deriving DecidableEq

/-- Feed one key event to the engine, discarding the emission. -/
def zchStep (s : ZchState) : ZchEvent → ZchState
  | .press osc => (s.zch_press_key osc).1
  | .release osc => (s.zch_release_key osc).1

/-- Run the engine over a sequence of key events, discarding emissions. -/
def zch_run (s : ZchState) (evs : List ZchEvent) : ZchState :=
  evs.foldl zchStep s

/-- Run the engine over a sequence of key events, collecting all events
emitted through the key-injection capability. -/
def zch_emit (s : ZchState) (evs : List ZchEvent) : List KbdEv :=
  (evs.foldl
    (fun acc e =>
      match e with
      | .press osc =>
        let r := acc.1.zch_press_key osc
        (r.1, acc.2 ++ r.2)
      | .release osc =>
        let r := acc.1.zch_release_key osc
        (r.1, acc.2 ++ r.2))
    (s, [])).2

/-- One step of the physically-held-keys bookkeeping. -/
def heldStep (h : Finset OsCode) : ZchEvent → Finset OsCode
  | .press osc => insert osc h
  | .release osc => h.erase osc

/-- The set of keys physically held after a sequence of events: pressed
and not since released. -/
def heldKeys (evs : List ZchEvent) : Finset OsCode :=
  evs.foldl heldStep ∅

/-! ## Concrete fixtures -/

/-- The chord output `"day"` with no follow-ups. -/
def dayOutput : ZchChordOutput := ⟨"day", none⟩

/-- Key codes standing for the keys `D` and `Y`; `oscD < oscY`, so the
canonical (ascending) chord key of `{D, Y}` is `[oscD, oscY]`. -/
def oscD : OsCode := 4

/-- See `oscD`. -/
def oscY : OsCode := 9

/-- A chord table containing exactly the chord `{D, Y} -> "day"`. -/
def dayTable : ZchPossibleChords :=
  ⟨Trie.new.insert [oscD, oscY] dayOutput⟩

/-- An engine state with `dayTable` installed and default dynamic state. -/
def dayState : ZchState := ⟨zchdDefault, dayTable, zchConfigDefault⟩

/-- `dayState` with the key `D` recorded as held and a nonzero tick count:
the engine state just before a release of `D` is processed. -/
def heldOneState : ZchState :=
  { dayState with zchd :=
    { zchdDefault with
        zchd_pressed_keys := {oscD}
        zchd_ticks_since_state_change := 7 } }

/-- A Disabled engine state with one key held and a nonzero tick count. -/
def disabledHeldState : ZchState :=
  { dayState with zchd :=
    { zchdDefault with
        zchd_enabled_state := .ZchDisabled
        zchd_pressed_keys := {5}
        zchd_ticks_since_state_change := 3 } }

/-- A dynamic state at the moment WaitEnable is entered with cooldown `w`. -/
def mkWait (w : Nat) : ZchDynamicState :=
  { zchdDefault with
      zchd_enabled_state := .ZchWaitEnable
      zchd_ticks_until_enabled := w }

/-- A dynamic state whose staleness counter is about to exceed the
threshold, with content to observe the forced reset on. -/
def staleState : ZchDynamicState :=
  { zchdDefault with
      zchd_enabled_state := .ZchDisabled
      zchd_pressed_keys := {3}
      zchd_ticks_since_state_change := 10000 }

/-- A dynamic state well beyond the staleness threshold. -/
def staleState2 : ZchDynamicState :=
  { zchdDefault with
      zchd_enabled_state := .ZchDisabled
      zchd_pressed_keys := {3}
      zchd_ticks_since_state_change := 20000 }

/-- A dynamic state whose 16-bit staleness counter is at its maximum:
the next tick wraps the counter to `0`. -/
def wrapState : ZchDynamicState :=
  { zchdDefault with
      zchd_enabled_state := .ZchDisabled
      zchd_pressed_keys := {7}
      zchd_ticks_since_state_change := 65535 }

/-! ## Tick lemmas -/

namespace ZchDynamicState

theorem zchd_tick_since (s : ZchDynamicState) :
    s.zchd_tick.zchd_ticks_since_state_change =
      (s.zchd_ticks_since_state_change + 1) % 65536 := by
  by_cases h1 : s.zchd_enabled_state = ZchEnabledState.ZchWaitEnable <;>
    by_cases h2 : s.zchd_ticks_until_enabled - 1 = 0 <;>
    by_cases h3 : (s.zchd_ticks_since_state_change + 1) % 65536 >
      TICKS_UNTIL_FORCE_STATE_RESET <;>
    simp [zchd_tick, zchd_reset, h1, h2, h3]

theorem zchd_tick_reset_of (s : ZchDynamicState)
    (h : (s.zchd_ticks_since_state_change + 1) % 65536 >
      TICKS_UNTIL_FORCE_STATE_RESET) :
    s.zchd_tick.zchd_enabled_state = .ZchEnabled
      ∧ s.zchd_tick.zchd_pressed_keys = ∅
      ∧ s.zchd_tick.zchd_sorted_inputs = ⟨⟨[]⟩⟩
      ∧ s.zchd_tick.zchd_prioritized_chords = none := by
  by_cases h1 : s.zchd_enabled_state = ZchEnabledState.ZchWaitEnable <;>
    by_cases h2 : s.zchd_ticks_until_enabled - 1 = 0 <;>
    simp [zchd_tick, zchd_reset, h1, h2, h]

theorem zchd_tick_wait_step (s : ZchDynamicState)
    (h1 : s.zchd_enabled_state = .ZchWaitEnable)
    (h2 : s.zchd_ticks_until_enabled - 1 ≠ 0)
    (h3 : ¬ (s.zchd_ticks_since_state_change + 1) % 65536 >
      TICKS_UNTIL_FORCE_STATE_RESET) :
    s.zchd_tick =
      { s with
          zchd_ticks_since_state_change :=
            (s.zchd_ticks_since_state_change + 1) % 65536
          zchd_ticks_until_enabled := s.zchd_ticks_until_enabled - 1 } := by
  simp [zchd_tick, h1, h2, h3]

theorem zchd_tick_wait_done (s : ZchDynamicState)
    (h1 : s.zchd_enabled_state = .ZchWaitEnable)
    (h2 : s.zchd_ticks_until_enabled - 1 = 0) :
    s.zchd_tick.zchd_enabled_state = .ZchEnabled := by
  by_cases h3 : (s.zchd_ticks_since_state_change + 1) % 65536 >
      TICKS_UNTIL_FORCE_STATE_RESET <;>
    simp [zchd_tick, zchd_reset, h1, h2, h3]

theorem zchd_tick_iterate_wait (w : Nat)
    (hw2 : w ≤ TICKS_UNTIL_FORCE_STATE_RESET + 1) (s : ZchDynamicState)
    (h1 : s.zchd_enabled_state = .ZchWaitEnable)
    (h2 : s.zchd_ticks_until_enabled = w)
    (h3 : s.zchd_ticks_since_state_change = 0) :
    ∀ k, k < w → zchd_tick^[k] s =
      { s with
          zchd_ticks_until_enabled := w - k
          zchd_ticks_since_state_change := k } := by
  unfold TICKS_UNTIL_FORCE_STATE_RESET at hw2
  intro k
  induction k with
  | zero =>
    intro _
    rw [Function.iterate_zero_apply, Nat.sub_zero, ← h2, ← h3]
  | succ k ih =>
    intro hk
    rw [Function.iterate_succ_apply', ih (Nat.lt_of_succ_lt hk),
      zchd_tick_wait_step
        { s with
            zchd_ticks_until_enabled := w - k
            zchd_ticks_since_state_change := k }
        h1 (by show w - k - 1 ≠ 0; omega)
        (by show ¬ (k + 1) % 65536 > TICKS_UNTIL_FORCE_STATE_RESET
            unfold TICKS_UNTIL_FORCE_STATE_RESET; omega)]
    obtain ⟨si, es, pc, tsc, tue, pk⟩ := s
    simp only [ZchDynamicState.mk.injEq, and_true, true_and]
    omega

end ZchDynamicState

/-! ## Claims C6, C7, C10: tick and reset behaviour -/

/-- Claim C6, counterexample: with a configured wait-tick count of `w = 0`,
at the moment the state enters WaitEnable (cooldown countdown `0`) the
enabled-state is WaitEnable, not Enabled, after exactly `w = 0` calls to
`tick()` — the code only leaves WaitEnable inside `zchd_tick`, so a further
tick is needed. -/
theorem c6_wait_zero_counterexample :
    (mkWait 0).zchd_ticks_until_enabled = 0
    ∧ (ZchDynamicState.zchd_tick^[0] (mkWait 0)).zchd_enabled_state ≠
      ZchEnabledState.ZchEnabled := by
  decide

/-- Claim C6 (amended): for every configured wait-tick count `w` with
`1 ≤ w ≤ 10001`, starting from the moment the state enters WaitEnable
(cooldown countdown `= w`, ticks-since-state-change `= 0`), with no
intervening press or release, the state is not Enabled after fewer than `w`
calls to `tick()` and is Enabled after exactly `w` calls.  (The original
claim quantified over every `w`: it fails at `w = 0`, where the state is
still WaitEnable after zero ticks and Enabled only after one, and for
`w > 10001` the staleness reset forces Enabled after 10001 ticks.) -/
theorem c6_wait_enable_exact_amended :
    ∀ (w : Nat) (s : ZchDynamicState),
      1 ≤ w → w ≤ TICKS_UNTIL_FORCE_STATE_RESET + 1 →
      s.zchd_enabled_state = .ZchWaitEnable →
      s.zchd_ticks_until_enabled = w →
      s.zchd_ticks_since_state_change = 0 →
      (∀ k, k < w →
        (ZchDynamicState.zchd_tick^[k] s).zchd_enabled_state ≠
          ZchEnabledState.ZchEnabled)
      ∧ (ZchDynamicState.zchd_tick^[w] s).zchd_enabled_state =
          ZchEnabledState.ZchEnabled := by
  intro w s hw1 hw2 h1 h2 h3
  constructor
  · intro k hk
    rw [ZchDynamicState.zchd_tick_iterate_wait w hw2 s h1 h2 h3 k hk]
    simp [h1]
  · obtain ⟨w', rfl⟩ : ∃ w', w = w' + 1 := ⟨w - 1, by omega⟩
    rw [Function.iterate_succ_apply',
      ZchDynamicState.zchd_tick_iterate_wait (w' + 1) hw2 s h1 h2 h3 w'
        (Nat.lt_succ_self w')]
    exact ZchDynamicState.zchd_tick_wait_done _ h1 (by show w' + 1 - w' - 1 = 0; omega)

/-- Witness for C6: with `w = 2`, the state is still not Enabled after 0 or
1 tick and is Enabled after exactly 2 ticks. -/
theorem c6_wait_enable_exact_witness :
    (∀ k, k < 2 →
      (ZchDynamicState.zchd_tick^[k] (mkWait 2)).zchd_enabled_state ≠
        ZchEnabledState.ZchEnabled)
    ∧ (ZchDynamicState.zchd_tick^[2] (mkWait 2)).zchd_enabled_state =
        ZchEnabledState.ZchEnabled :=
  c6_wait_enable_exact_amended 2 (mkWait 2) (by decide) (by decide) rfl rfl rfl

/-- Claim C7 (confirmed): every call to `tick()` increments the
ticks-since-last-state-change counter (a 16-bit counter, so modulo `2^16`),
and whenever the incremented counter exceeds the staleness threshold
(10000), the same `tick()` call forces a full reset of the dynamic state:
Enabled, empty physically-pressed set, empty Canonical Chord Key
accumulator, and no active follow-up table. -/
theorem c7_tick_increment_and_reset :
    ∀ s : ZchDynamicState,
      s.zchd_tick.zchd_ticks_since_state_change =
        (s.zchd_ticks_since_state_change + 1) % 65536
      ∧ ((s.zchd_ticks_since_state_change + 1) % 65536 >
            TICKS_UNTIL_FORCE_STATE_RESET →
          s.zchd_tick.zchd_enabled_state = ZchEnabledState.ZchEnabled
          ∧ s.zchd_tick.zchd_pressed_keys = ∅
          ∧ s.zchd_tick.zchd_sorted_inputs = ⟨⟨[]⟩⟩
          ∧ s.zchd_tick.zchd_prioritized_chords = none) :=
  fun s => ⟨ZchDynamicState.zchd_tick_since s, ZchDynamicState.zchd_tick_reset_of s⟩

/-- Witness for C7: ticking at counter value 10000 increments it to 10001
and forces the full reset. -/
theorem c7_tick_witness :
    staleState.zchd_tick.zchd_ticks_since_state_change = 10001
    ∧ staleState.zchd_tick.zchd_enabled_state = ZchEnabledState.ZchEnabled
    ∧ staleState.zchd_tick.zchd_pressed_keys = ∅
    ∧ staleState.zchd_tick.zchd_sorted_inputs = ⟨⟨[]⟩⟩
    ∧ staleState.zchd_tick.zchd_prioritized_chords = none := by
  have h := c7_tick_increment_and_reset staleState
  exact ⟨by rw [h.1]; decide, h.2 (by decide)⟩

/-- Claim C10, counterexample: with the 16-bit counter at 65535 (which has
long exceeded the threshold), the next `tick()` wraps the counter to 0 and
does NOT trigger the reset — the pressed set stays `{7}` and the state
stays Disabled — refuting "every subsequent tick() triggers the reset
again". -/
theorem c10_wrap_counterexample :
    wrapState.zchd_ticks_since_state_change > TICKS_UNTIL_FORCE_STATE_RESET
    ∧ wrapState.zchd_tick.zchd_pressed_keys = {7}
    ∧ wrapState.zchd_tick.zchd_enabled_state = ZchEnabledState.ZchDisabled
    ∧ wrapState.zchd_tick.zchd_ticks_since_state_change = 0 := by
  decide

/-- Claim C10 (amended): the staleness reset `zchd_reset` changes only the
enabled-state, the physically-pressed set, the accumulator and the
follow-up table reference, leaving both tick counters unchanged;
consequently every `tick()` whose incremented counter value (taken modulo
`2^16`) still exceeds the threshold triggers the reset again, the counter
incrementing modulo `2^16`.  (The original claim asserted that once the
counter has exceeded the threshold EVERY subsequent tick resets: this
fails at the wrap, where the counter returns to 0 and resets cease until
it exceeds the threshold anew.) -/
theorem c10_reset_frame_amended :
    (∀ s : ZchDynamicState,
        s.zchd_reset.zchd_ticks_since_state_change =
          s.zchd_ticks_since_state_change
        ∧ s.zchd_reset.zchd_ticks_until_enabled = s.zchd_ticks_until_enabled
        ∧ s.zchd_reset.zchd_enabled_state = ZchEnabledState.ZchEnabled
        ∧ s.zchd_reset.zchd_pressed_keys = ∅
        ∧ s.zchd_reset.zchd_sorted_inputs = ⟨⟨[]⟩⟩
        ∧ s.zchd_reset.zchd_prioritized_chords = none)
    ∧ (∀ s : ZchDynamicState,
        (s.zchd_ticks_since_state_change + 1) % 65536 >
            TICKS_UNTIL_FORCE_STATE_RESET →
          s.zchd_tick.zchd_ticks_since_state_change =
            (s.zchd_ticks_since_state_change + 1) % 65536
          ∧ s.zchd_tick.zchd_enabled_state = ZchEnabledState.ZchEnabled
          ∧ s.zchd_tick.zchd_pressed_keys = ∅
          ∧ s.zchd_tick.zchd_sorted_inputs = ⟨⟨[]⟩⟩
          ∧ s.zchd_tick.zchd_prioritized_chords = none) :=
  ⟨fun _ => ⟨rfl, rfl, rfl, rfl, rfl, rfl⟩,
   fun s h =>
    ⟨ZchDynamicState.zchd_tick_since s, ZchDynamicState.zchd_tick_reset_of s h⟩⟩

/-- Witness for C10: ticking at counter value 20000 (past the threshold,
before the wrap) still triggers the reset and increments the counter. -/
theorem c10_reset_frame_witness :
    staleState2.zchd_tick.zchd_ticks_since_state_change = 20001
    ∧ staleState2.zchd_tick.zchd_enabled_state = ZchEnabledState.ZchEnabled
    ∧ staleState2.zchd_tick.zchd_pressed_keys = ∅ := by
  have h := c10_reset_frame_amended.2 staleState2 (by decide)
  exact ⟨by rw [h.1]; decide, h.2.1, h.2.2.1⟩

/-! ## Claims C4, C5: key release -/

theorem zch_release_spec (s : ZchState) (osc : OsCode)
    (h : s.zch_chords.is_empty = false) :
    s.zch_release_key osc =
      ({ s with zchd := (s.zchd.zchd_state_change s.zch_cfg).zchd_release_key osc },
       [KbdEv.release osc]) := by
  simp [ZchState.zch_release_key, h]

/-- Claim C4, counterexample: with `{D, Y}` the only chord containing `D`,
pressing `D` and then releasing `D` (before pressing `Y`) does NOT
transition the state to Disabled at the release — the pressed set becomes
empty, so the code goes to WaitEnable (`zchd_release_key`'s
`is_empty => ZchWaitEnable` branch). -/
theorem c4_release_last_key_counterexample :
    (zch_run dayState [ZchEvent.press oscD, ZchEvent.release oscD]).zchd.zchd_enabled_state ≠
      ZchEnabledState.ZchDisabled := by
  decide

/-- Claim C4 (amended): on `release(k)` with a non-empty chord table and
enabled-state Enabled or WaitEnable, the ticks-since-last-state-change
counter is reset to zero, `k` is removed from the physically-pressed set,
and the release is passed through; if the pressed set is now empty the
state becomes WaitEnable with the cooldown countdown set to the configured
wait-tick count, otherwise Disabled.  In particular, with `{D, Y}` the
only chord, pressing `D` then releasing `D` transitions to WaitEnable at
that release (the pressed set having become empty), not Disabled as the
original claim's last sentence said. -/
theorem c4_release_enabled_amended :
    (∀ (s : ZchState) (osc : OsCode),
      s.zch_chords.is_empty = false →
      (s.zchd.zchd_enabled_state = ZchEnabledState.ZchEnabled
        ∨ s.zchd.zchd_enabled_state = ZchEnabledState.ZchWaitEnable) →
      (s.zch_release_key osc).2 = [KbdEv.release osc]
      ∧ (s.zch_release_key osc).1.zchd.zchd_ticks_since_state_change = 0
      ∧ (s.zch_release_key osc).1.zchd.zchd_pressed_keys =
          s.zchd.zchd_pressed_keys.erase osc
      ∧ (if s.zchd.zchd_pressed_keys.erase osc = ∅ then
          (s.zch_release_key osc).1.zchd.zchd_enabled_state =
            ZchEnabledState.ZchWaitEnable
          ∧ (s.zch_release_key osc).1.zchd.zchd_ticks_until_enabled =
            s.zch_cfg.zch_cfg_ticks_wait_enable
        else (s.zch_release_key osc).1.zchd.zchd_enabled_state =
            ZchEnabledState.ZchDisabled))
    ∧ (zch_run dayState [ZchEvent.press oscD, ZchEvent.release oscD]).zchd.zchd_enabled_state =
        ZchEnabledState.ZchWaitEnable := by
  constructor
  · intro s osc h _
    rw [zch_release_spec s osc h]
    refine ⟨rfl, rfl, rfl, ?_⟩
    by_cases hp : s.zchd.zchd_pressed_keys.erase osc = ∅
    · rw [if_pos hp]
      exact ⟨by simp [ZchDynamicState.zchd_release_key,
        ZchDynamicState.zchd_state_change, hp], rfl⟩
    · rw [if_neg hp]
      simp [ZchDynamicState.zchd_release_key,
        ZchDynamicState.zchd_state_change, hp]
  · decide

/-- Witness for C4: releasing the held key `D` from `heldOneState`
(Enabled, pressed set `{D}`, stale tick counter 7) emits the release,
zeroes the counter, and moves to WaitEnable. -/
theorem c4_release_enabled_witness :
    (heldOneState.zch_release_key oscD).2 = [KbdEv.release oscD]
    ∧ (heldOneState.zch_release_key oscD).1.zchd.zchd_ticks_since_state_change = 0
    ∧ (heldOneState.zch_release_key oscD).1.zchd.zchd_enabled_state =
        ZchEnabledState.ZchWaitEnable := by
  have h := c4_release_enabled_amended.1 heldOneState oscD (by decide) (Or.inl rfl)
  refine ⟨h.1, h.2.1, ?_⟩
  have h4 := h.2.2.2
  rw [if_pos (by decide)] at h4
  exact h4.1

/-- Claim C5, counterexample: releasing key 5 with a non-empty chord table
while Disabled (pressed set `{5}`, tick counter 3) DOES change the dynamic
state — `zch_release_key` never checks for Disabled: the tick counter is
zeroed, the key is removed from the pressed set, and the enabled-state
moves to WaitEnable. -/
theorem c5_release_disabled_counterexample :
    disabledHeldState.zch_chords.is_empty = false
    ∧ disabledHeldState.zchd.zchd_enabled_state = ZchEnabledState.ZchDisabled
    ∧ (disabledHeldState.zch_release_key 5).1.zchd.zchd_ticks_since_state_change ≠
        disabledHeldState.zchd.zchd_ticks_since_state_change
    ∧ (disabledHeldState.zch_release_key 5).1.zchd.zchd_enabled_state ≠
        disabledHeldState.zchd.zchd_enabled_state
    ∧ (disabledHeldState.zch_release_key 5).1.zchd.zchd_pressed_keys ≠
        disabledHeldState.zchd.zchd_pressed_keys := by
  decide

/-- Claim C5 (amended): on `release(k)` with a non-empty chord table while
Disabled, the release is passed through, but the dynamic state DOES change,
exactly as in the Enabled/WaitEnable case: the ticks-since-state-change
counter is zeroed, the cooldown countdown is reloaded from the
configuration, `k` is removed from the pressed set, and the state becomes
WaitEnable if the pressed set is now empty (this is how a Disabled engine
re-arms once all keys are released), else stays Disabled.  The original
claim said no dynamic state changes at all. -/
theorem c5_release_disabled_amended :
    ∀ (s : ZchState) (osc : OsCode),
      s.zch_chords.is_empty = false →
      s.zchd.zchd_enabled_state = ZchEnabledState.ZchDisabled →
      (s.zch_release_key osc).2 = [KbdEv.release osc]
      ∧ (s.zch_release_key osc).1.zchd.zchd_ticks_since_state_change = 0
      ∧ (s.zch_release_key osc).1.zchd.zchd_ticks_until_enabled =
          s.zch_cfg.zch_cfg_ticks_wait_enable
      ∧ (s.zch_release_key osc).1.zchd.zchd_pressed_keys =
          s.zchd.zchd_pressed_keys.erase osc
      ∧ (s.zch_release_key osc).1.zchd.zchd_enabled_state =
          (if s.zchd.zchd_pressed_keys.erase osc = ∅ then
            ZchEnabledState.ZchWaitEnable else ZchEnabledState.ZchDisabled) := by
  intro s osc h _
  rw [zch_release_spec s osc h]
  exact ⟨rfl, rfl, rfl, rfl, rfl⟩

/-- Witness for C5: releasing key 5 from `disabledHeldState`. -/
theorem c5_release_disabled_witness :
    (disabledHeldState.zch_release_key 5).2 = [KbdEv.release 5]
    ∧ (disabledHeldState.zch_release_key 5).1.zchd.zchd_ticks_since_state_change = 0
    ∧ (disabledHeldState.zch_release_key 5).1.zchd.zchd_enabled_state =
        ZchEnabledState.ZchWaitEnable := by
  have h := c5_release_disabled_amended disabledHeldState 5 (by decide) rfl
  refine ⟨h.1, h.2.1, ?_⟩
  rw [h.2.2.2.2, if_pos (by decide)]

/-! ## Claim C8: the Canonical Chord Key accumulator -/

theorem mem_sortedInsert {l : List Nat} {k y : Nat}
    (h : y ∈ sortedInsert l k) : y ∈ l ∨ y = k := by
  induction l with
  | nil =>
    simp only [sortedInsert, List.mem_singleton] at h
    exact Or.inr h
  | cons x xs ih =>
    simp only [sortedInsert] at h
    split_ifs at h with h1 h2
    · rcases List.mem_cons.mp h with rfl | hy
      · exact Or.inr rfl
      · exact Or.inl hy
    · exact Or.inl h
    · rcases List.mem_cons.mp h with rfl | hy
      · exact Or.inl (List.mem_cons_self _ _)
      · rcases ih hy with h' | h'
        · exact Or.inl (List.mem_cons_of_mem _ h')
        · exact Or.inr h'

theorem sortedInsert_pairwise {l : List Nat} {k : Nat}
    (h : l.Pairwise (· < ·)) : (sortedInsert l k).Pairwise (· < ·) := by
  induction l with
  | nil => simp [sortedInsert]
  | cons x xs ih =>
    rw [List.pairwise_cons] at h
    obtain ⟨hx, hxs⟩ := h
    simp only [sortedInsert]
    split_ifs with h1 h2
    · rw [List.pairwise_cons]
      refine ⟨?_, List.pairwise_cons.mpr ⟨hx, hxs⟩⟩
      intro b hb
      rcases List.mem_cons.mp hb with rfl | hb'
      · exact h1
      · exact lt_trans h1 (hx b hb')
    · exact List.pairwise_cons.mpr ⟨hx, hxs⟩
    · rw [List.pairwise_cons]
      refine ⟨?_, ih hxs⟩
      intro b hb
      rcases mem_sortedInsert hb with hb' | rfl
      · exact hx b hb'
      · omega

theorem sortedInsert_mem_eq {l : List Nat} {k : Nat}
    (hs : l.Pairwise (· < ·)) (hm : k ∈ l) : sortedInsert l k = l := by
  induction l with
  | nil => simp at hm
  | cons x xs ih =>
    rw [List.pairwise_cons] at hs
    obtain ⟨hx, hxs⟩ := hs
    rcases List.mem_cons.mp hm with rfl | hm'
    · simp [sortedInsert]
    · have hxk : x < k := hx k hm'
      simp only [sortedInsert]
      rw [if_neg (by omega), if_neg (by omega), ih hxs hm']

/-- Claim C8 (confirmed): the Canonical Chord Key accumulator's key list,
built by any sequence of `zch_insert` calls from the empty accumulator, is
always strictly ascending (hence duplicate-free); and inserting a key code
that is already present into a strictly-ascending accumulator is an
idempotent no-op — contents (hence length) unchanged, no error. -/
theorem c8_sorted_insert_spec :
    (∀ ks : List Nat,
      ((ks.foldl (fun c k => c.zch_insert k) (⟨[]⟩ : ZchSortedChord)).zch_keys).Pairwise
        (· < ·))
    ∧ (∀ (c : ZchSortedChord) (k : Nat),
        c.zch_keys.Pairwise (· < ·) → k ∈ c.zch_keys → c.zch_insert k = c) := by
  constructor
  · intro ks
    suffices h : ∀ c : ZchSortedChord, c.zch_keys.Pairwise (· < ·) →
        ((ks.foldl (fun c k => c.zch_insert k) c).zch_keys).Pairwise (· < ·) by
      exact h ⟨[]⟩ (by simp)
    induction ks with
    | nil => intro c hc; simpa using hc
    | cons k ks ih =>
      intro c hc
      simp only [List.foldl_cons]
      exact ih _ (sortedInsert_pairwise hc)
  · intro c k hs hm
    cases c with
    | mk keys =>
      simp only [ZchSortedChord.zch_insert, ZchSortedChord.mk.injEq]
      exact sortedInsert_mem_eq hs hm

/-- Witness for C8: re-inserting 5 into the sorted accumulator `[2, 5]`
leaves it unchanged. -/
theorem c8_sorted_insert_witness :
    ZchSortedChord.zch_insert ⟨[2, 5]⟩ 5 = ⟨[2, 5]⟩ :=
  c8_sorted_insert_spec.2 ⟨[2, 5]⟩ 5 (by decide) (by decide)

/-! ## Claim C1: chord activation (spec-modelled press logic) -/

/-- Claim C1, counterexample: with the chord table containing exactly
`{D, Y} -> "day"` (canonical key `[oscD, oscY]`, `oscD < oscY`), pressing
the keys in the order Y then D does NOT activate: after the first press
the accumulated Canonical Chord Key `[oscY]` is not a prefix of the stored
sorted key `[oscD, oscY]`, so the lookup is `NotPresent`, the engine
transitions to Disabled and both presses pass through unchanged, the
accumulator retaining `[oscY]` — refuting "in either key order". -/
theorem c1_order_counterexample :
    zch_emit dayState [ZchEvent.press oscY, ZchEvent.press oscD] =
      [KbdEv.press oscY, KbdEv.press oscD]
    ∧ (zch_run dayState
        [ZchEvent.press oscY, ZchEvent.press oscD]).zchd.zchd_sorted_inputs.zch_inputs.zch_keys =
        [oscY]
    ∧ (zch_run dayState
        [ZchEvent.press oscY, ZchEvent.press oscD]).zchd.zchd_enabled_state =
        ZchEnabledState.ZchDisabled := by
  decide

/-- Claim C1 (amended, spec-modelled press logic): for the chord table
containing exactly `{D, Y} -> "day"`, starting from the default Enabled
state, pressing the two keys in the canonical (ascending key-code) order —
D then Y here, since `oscD < oscY` — activates immediately: the engine
emits exactly 2 deletion events followed by the output `"day"`, and
afterwards the Canonical Chord Key accumulator and the physically-pressed
set are both empty.  In the opposite order the first press yields
`NotPresent` and the engine disables (see the counterexample). -/
theorem c1_chord_activation_amended :
    zch_emit dayState [ZchEvent.press oscD, ZchEvent.press oscY] =
      [KbdEv.del, KbdEv.del, KbdEv.text "day"]
    ∧ (zch_run dayState
        [ZchEvent.press oscD, ZchEvent.press oscY]).zchd.zchd_sorted_inputs.zch_inputs.zch_keys =
        []
    ∧ (zch_run dayState
        [ZchEvent.press oscD, ZchEvent.press oscY]).zchd.zchd_pressed_keys = ∅ := by
  decide

/-! ## Claim C3: the physically-pressed set -/

theorem zch_press_pressed_sub (s : ZchState) (osc : OsCode) :
    (s.zch_press_key osc).1.zchd.zchd_pressed_keys ⊆
      insert osc s.zchd.zchd_pressed_keys := by
  unfold ZchState.zch_press_key
  split
  · exact Finset.subset_insert _ _
  · dsimp only
    split
    · exact Finset.Subset.refl _
    · split
      · exact Finset.Subset.refl _
      · exact Finset.empty_subset _
    · exact Finset.Subset.refl _

theorem zch_press_chords_eq (s : ZchState) (osc : OsCode) :
    (s.zch_press_key osc).1.zch_chords = s.zch_chords := by
  unfold ZchState.zch_press_key
  split
  · rfl
  · dsimp only
    split
    · rfl
    · split <;> rfl
    · rfl

theorem zch_press_of_empty (s : ZchState) (osc : OsCode)
    (h : s.zch_chords.is_empty = true) : (s.zch_press_key osc).1 = s := by
  unfold ZchState.zch_press_key
  rw [if_pos (by rw [h]; rfl)]

theorem zch_release_chords_eq (s : ZchState) (osc : OsCode) :
    (s.zch_release_key osc).1.zch_chords = s.zch_chords := by
  unfold ZchState.zch_release_key
  split <;> rfl

theorem zch_release_of_empty (s : ZchState) (osc : OsCode)
    (h : s.zch_chords.is_empty = true) : (s.zch_release_key osc).1 = s := by
  unfold ZchState.zch_release_key
  rw [if_pos h]

theorem zch_release_pressed (s : ZchState) (osc : OsCode)
    (h : s.zch_chords.is_empty = false) :
    (s.zch_release_key osc).1.zchd.zchd_pressed_keys =
      s.zchd.zchd_pressed_keys.erase osc := by
  rw [zch_release_spec s osc h]
  rfl

theorem zch_run_pressed_sub :
    ∀ (evs : List ZchEvent) (s : ZchState) (H : Finset OsCode),
      s.zchd.zchd_pressed_keys ⊆ H →
      (s.zch_chords.is_empty = true → s.zchd.zchd_pressed_keys = ∅) →
      (zch_run s evs).zchd.zchd_pressed_keys ⊆ evs.foldl heldStep H := by
  intro evs
  induction evs with
  | nil =>
    intro s H h1 _
    simpa [zch_run] using h1
  | cons e rest ih =>
    intro s H h1 h2
    show ((e :: rest).foldl zchStep s).zchd.zchd_pressed_keys ⊆
      (e :: rest).foldl heldStep H
    simp only [List.foldl_cons]
    apply ih
    · cases e with
      | press osc =>
        calc (s.zch_press_key osc).1.zchd.zchd_pressed_keys
            ⊆ insert osc s.zchd.zchd_pressed_keys := zch_press_pressed_sub s osc
          _ ⊆ insert osc H := Finset.insert_subset_insert _ h1
      | release osc =>
        cases hch : s.zch_chords.is_empty with
        | true =>
          show (s.zch_release_key osc).1.zchd.zchd_pressed_keys ⊆ H.erase osc
          rw [zch_release_of_empty s osc hch, h2 hch]
          exact Finset.empty_subset _
        | false =>
          show (s.zch_release_key osc).1.zchd.zchd_pressed_keys ⊆ H.erase osc
          rw [zch_release_pressed s osc hch]
          exact Finset.erase_subset_erase _ h1
    · cases e with
      | press osc =>
        intro hch
        have hch' : (s.zch_press_key osc).1.zch_chords.is_empty = true := hch
        rw [zch_press_chords_eq] at hch'
        show (s.zch_press_key osc).1.zchd.zchd_pressed_keys = ∅
        rw [zch_press_of_empty s osc hch']
        exact h2 hch'
      | release osc =>
        intro hch
        have hch' : (s.zch_release_key osc).1.zch_chords.is_empty = true := hch
        rw [zch_release_chords_eq] at hch'
        show (s.zch_release_key osc).1.zchd.zchd_pressed_keys = ∅
        rw [zch_release_of_empty s osc hch']
        exact h2 hch'

/-- Claim C3, counterexample: with the default engine (empty chord table),
pressing key 5 passes through without being recorded: the engine's
physically-pressed set stays empty although key 5 is held — refuting
"after each event the physically-pressed set equals exactly the set of
keys that have been pressed and not since released". -/
theorem c3_pressed_set_counterexample :
    (zch_run zchDefault [ZchEvent.press 5]).zchd.zchd_pressed_keys = ∅
    ∧ heldKeys [ZchEvent.press 5] = {5}
    ∧ (∅ : Finset OsCode) ≠ ({5} : Finset OsCode) := by
  decide

/-- Claim C3 (amended): for every chord table, configuration and sequence
of press/release events fed to the engine from its default dynamic state,
after each event the physically-pressed set is a SUBSET of the keys
pressed and not since released (never a stale extra key); it can be a
proper subset, since presses with an empty chord table or in the Disabled
state are passed through without being recorded, and a chord activation
clears the set while the chord keys remain physically held. -/
theorem c3_pressed_subset_held :
    ∀ (chords : ZchPossibleChords) (cfg : ZchConfig) (evs : List ZchEvent),
      (zch_run ⟨zchdDefault, chords, cfg⟩ evs).zchd.zchd_pressed_keys ⊆
        heldKeys evs :=
  fun chords cfg evs =>
    zch_run_pressed_sub evs ⟨zchdDefault, chords, cfg⟩ ∅ (fun _ ha => ha)
      (fun _ => rfl)

/-! ## Claim C2: the combined trie query -/

theorem isPrefixB_iff : ∀ (p l : List Nat), isPrefixB p l = true ↔ p <+: l
  | [], l => by simp [isPrefixB]
  | _ :: _, [] => by simp [isPrefixB]
  | a :: as, b :: bs => by
    simp only [isPrefixB, Bool.and_eq_true, decide_eq_true_iff,
      List.cons_prefix_cons]
    exact and_congr_right fun _ => isPrefixB_iff as bs

theorem castSlice_length (k : TrieKey) : (castSlice k).length = key_len k := by
  induction k with
  | nil => rfl
  | cons x xs ih =>
    have h1 : castSlice (x :: xs) = u16Bytes x ++ castSlice xs := rfl
    rw [h1, List.length_append, ih]
    show 2 + xs.length * 2 = (xs.length + 1) * 2
    omega

/-- Claim C2 (confirmed): for every trie and key `k`,
`get_or_descendant_exists k` returns `NotInTrie` exactly when no inserted
key has `k` (byte-packed) as a prefix — in particular on the empty trie it
returns `NotInTrie` for every key; it returns `HasValue v` exactly when the
first entry under the prefix scan of `k` ends exactly at `k`'s byte length
(2 times its element count) and carries value `v`; and it returns `InTrie`
exactly when entries exist under the prefix but the first one is strictly
longer than `k`. -/
theorem c2_get_or_descendant_exists_spec :
    ∀ (T : Type) (t : Trie T) (key : TrieKey),
      (t.get_or_descendant_exists key = GetOrDescendentExistsResult.NotInTrie ↔
        ∀ e ∈ t.inner, ¬ castSlice key <+: e.1)
      ∧ (∀ v : T,
          t.get_or_descendant_exists key = GetOrDescendentExistsResult.HasValue v ↔
          ∃ e, (patEntriesUnder t.inner (castSlice key)).head? = some e
            ∧ e.1.length = key_len key ∧ e.2 = v)
      ∧ (t.get_or_descendant_exists key = GetOrDescendentExistsResult.InTrie ↔
          ∃ e, (patEntriesUnder t.inner (castSlice key)).head? = some e
            ∧ key_len key < e.1.length)
      ∧ (Trie.new : Trie T).get_or_descendant_exists key =
          GetOrDescendentExistsResult.NotInTrie := by
  intro T t key
  have hfilter : ∀ e ∈ patEntriesUnder t.inner (castSlice key),
      castSlice key <+: e.1 := by
    intro e he
    simp only [patEntriesUnder, List.mem_filter] at he
    exact (isPrefixB_iff _ _).mp he.2
  refine ⟨?_, ?_, ?_, rfl⟩
  · cases h : (patEntriesUnder t.inner (castSlice key)).head? with
    | none =>
      have hnil : patEntriesUnder t.inner (castSlice key) = [] :=
        List.head?_eq_none_iff.mp h
      have hall : ∀ e ∈ t.inner, ¬ castSlice key <+: e.1 := by
        rw [patEntriesUnder, List.filter_eq_nil_iff] at hnil
        intro e he hpre
        exact hnil e he ((isPrefixB_iff _ _).mpr hpre)
      simp only [Trie.get_or_descendant_exists, h]
      exact iff_of_true trivial hall
    | some d =>
      have hd : d ∈ patEntriesUnder t.inner (castSlice key) :=
        List.mem_of_mem_head? (by simpa using h)
      have hdpre : castSlice key <+: d.1 := hfilter d hd
      have hdin : d ∈ t.inner := by
        simp only [patEntriesUnder, List.mem_filter] at hd
        exact hd.1
      simp only [Trie.get_or_descendant_exists, h]
      refine iff_of_false ?_ fun hall => hall d hdin hdpre
      intro hEq
      split at hEq <;> simp at hEq
  · intro v
    cases h : (patEntriesUnder t.inner (castSlice key)).head? with
    | none =>
      simp only [Trie.get_or_descendant_exists, h]
      refine iff_of_false (by simp) ?_
      rintro ⟨e, he, -, -⟩
      exact Option.noConfusion he
    | some d =>
      by_cases hl : d.1.length = key_len key
      · simp only [Trie.get_or_descendant_exists, h, if_pos hl]
        constructor
        · intro hEq
          refine ⟨d, rfl, hl, ?_⟩
          rw [← GetOrDescendentExistsResult.HasValue.injEq]
          exact hEq
        · rintro ⟨e, he, -, hv⟩
          obtain rfl : d = e := Option.some.inj he
          rw [hv]
      · simp only [Trie.get_or_descendant_exists, h, if_neg hl]
        refine iff_of_false (by simp) ?_
        rintro ⟨e, he, hlen, -⟩
        obtain rfl : d = e := Option.some.inj he
        exact hl hlen
  · cases h : (patEntriesUnder t.inner (castSlice key)).head? with
    | none =>
      simp only [Trie.get_or_descendant_exists, h]
      refine iff_of_false (by simp) ?_
      rintro ⟨e, he, -⟩
      exact Option.noConfusion he
    | some d =>
      have hd : d ∈ patEntriesUnder t.inner (castSlice key) :=
        List.mem_of_mem_head? (by simpa using h)
      have hdpre : castSlice key <+: d.1 := hfilter d hd
      have hdlen : key_len key ≤ d.1.length := by
        have := hdpre.length_le
        rw [castSlice_length] at this
        exact this
      by_cases hl : d.1.length = key_len key
      · simp only [Trie.get_or_descendant_exists, h, if_pos hl]
        refine iff_of_false (by simp) ?_
        rintro ⟨e, he, hlt⟩
        obtain rfl : d = e := Option.some.inj he
        omega
      · simp only [Trie.get_or_descendant_exists, h, if_neg hl]
        exact iff_of_true trivial ⟨d, rfl, by omega⟩

/-! ## Claim C9: ancestor and descendant queries -/

theorem castSlice_mono {a b : TrieKey} (h : a <+: b) :
    castSlice a <+: castSlice b := by
  obtain ⟨t, rfl⟩ := h
  exact ⟨castSlice t, by simp [castSlice]⟩

theorem castSlice_pre_cancel : ∀ {a b : TrieKey}, U16Key a → U16Key b →
    castSlice a <+: castSlice b → a <+: b := by
  intro a
  induction a with
  | nil =>
    intro b _ _ _
    exact List.nil_prefix
  | cons x xs ih =>
    intro b ha hb hpre
    cases b with
    | nil =>
      exfalso
      have hle := hpre.length_le
      rw [castSlice_length, castSlice_length] at hle
      simp [key_len] at hle
    | cons y ys =>
      have hx : x < 65536 := ha x (List.mem_cons_self _ _)
      have hy : y < 65536 := hb y (List.mem_cons_self _ _)
      have h1 : castSlice (x :: xs) = x % 256 :: (x / 256 % 256) :: castSlice xs :=
        rfl
      have h2 : castSlice (y :: ys) = y % 256 :: (y / 256 % 256) :: castSlice ys :=
        rfl
      rw [h1, h2, List.cons_prefix_cons] at hpre
      obtain ⟨e1, hpre⟩ := hpre
      rw [List.cons_prefix_cons] at hpre
      obtain ⟨e2, hpre⟩ := hpre
      have hx2 : x / 256 < 256 := by omega
      have hy2 : y / 256 < 256 := by omega
      rw [Nat.mod_eq_of_lt hx2, Nat.mod_eq_of_lt hy2] at e2
      rw [List.cons_prefix_cons]
      refine ⟨by omega, ?_⟩
      exact ih (fun z hz => ha z (List.mem_cons_of_mem _ hz))
        (fun z hz => hb z (List.mem_cons_of_mem _ hz)) hpre

theorem patGetLCP_f_isSome {T : Type} (bk : List Nat)
    (acc : Option (List Nat × T)) (e : List Nat × T) :
    ((if isPrefixB e.1 bk then
        match acc with
        | none => some e
        | some b => if b.1.length ≤ e.1.length then some e else some b
      else acc) : Option (List Nat × T)).isSome = true ↔
      acc.isSome = true ∨ e.1 <+: bk := by
  by_cases hp : isPrefixB e.1 bk = true
  · rw [if_pos hp]
    have hm : (match acc with
        | none => some e
        | some b =>
          if b.1.length ≤ e.1.length then some e else some b).isSome = true := by
      cases acc with
      | none => rfl
      | some b =>
        dsimp only
        split <;> rfl
    exact iff_of_true hm (Or.inr ((isPrefixB_iff _ _).mp hp))
  · rw [if_neg hp]
    constructor
    · exact Or.inl
    · rintro (ha | hpre)
      · exact ha
      · exact absurd ((isPrefixB_iff _ _).mpr hpre) hp

theorem patGetLCP_go {T : Type} (bk : List Nat) :
    ∀ (m : PatMap T) (acc : Option (List Nat × T)),
      (m.foldl
        (fun acc e =>
          if isPrefixB e.1 bk then
            match acc with
            | none => some e
            | some b => if b.1.length ≤ e.1.length then some e else some b
          else acc)
        acc).isSome = true ↔
      acc.isSome = true ∨ ∃ e ∈ m, e.1 <+: bk := by
  intro m
  induction m with
  | nil =>
    intro acc
    simp
  | cons e rest ih =>
    intro acc
    rw [List.foldl_cons, ih]
    constructor
    · rintro (hf | ⟨e', he', hp⟩)
      · rcases (patGetLCP_f_isSome bk acc e).mp hf with ha | hpre
        · exact Or.inl ha
        · exact Or.inr ⟨e, List.mem_cons_self _ _, hpre⟩
      · exact Or.inr ⟨e', List.mem_cons_of_mem _ he', hp⟩
    · rintro (ha | ⟨e', he', hp⟩)
      · exact Or.inl ((patGetLCP_f_isSome bk acc e).mpr (Or.inl ha))
      · rcases List.mem_cons.mp he' with rfl | hmem
        · exact Or.inl ((patGetLCP_f_isSome bk acc e').mpr (Or.inr hp))
        · exact Or.inr ⟨e', hmem, hp⟩

theorem patGetLCP_isSome_iff {T : Type} (m : PatMap T) (bk : List Nat) :
    (patGetLCP m bk).isSome = true ↔ ∃ e ∈ m, e.1 <+: bk := by
  unfold patGetLCP
  rw [patGetLCP_go bk m none]
  simp

theorem lcpLen_le_left : ∀ (a b : List Nat), lcpLen a b ≤ a.length
  | [], _ => by simp [lcpLen]
  | _ :: _, [] => by simp [lcpLen]
  | x :: xs, y :: ys => by
    simp only [lcpLen, List.length_cons]
    split
    · exact Nat.succ_le_succ (lcpLen_le_left xs ys)
    · exact Nat.zero_le _

theorem lcpLen_eq_length_iff : ∀ (a b : List Nat), lcpLen a b = a.length ↔ a <+: b
  | [], b => by
    simp [lcpLen, List.nil_prefix]
  | x :: xs, [] => by
    simp [lcpLen]
  | x :: xs, y :: ys => by
    by_cases h : x = y
    · have h1 : lcpLen (x :: xs) (y :: ys) = lcpLen xs ys + 1 := by
        simp [lcpLen, h]
      rw [h1, List.cons_prefix_cons, List.length_cons]
      constructor
      · intro he
        exact ⟨h, (lcpLen_eq_length_iff xs ys).mp (by omega)⟩
      · rintro ⟨-, hp⟩
        have := (lcpLen_eq_length_iff xs ys).mpr hp
        omega
    · have h1 : lcpLen (x :: xs) (y :: ys) = 0 := by
        simp [lcpLen, h]
      rw [h1, List.cons_prefix_cons, List.length_cons]
      constructor
      · intro he
        omega
      · rintro ⟨he, -⟩
        exact absurd he h

theorem patLcpLen_le {T : Type} (bk : List Nat) :
    ∀ (m : PatMap T) (acc : Nat), acc ≤ bk.length →
      m.foldl (fun acc e => max acc (lcpLen bk e.1)) acc ≤ bk.length := by
  intro m
  induction m with
  | nil =>
    intro acc h
    simpa using h
  | cons e rest ih =>
    intro acc h
    rw [List.foldl_cons]
    exact ih _ (max_le h (lcpLen_le_left bk e.1))

theorem patLcpLen_acc_le {T : Type} (bk : List Nat) :
    ∀ (m : PatMap T) (acc : Nat),
      acc ≤ m.foldl (fun acc e => max acc (lcpLen bk e.1)) acc := by
  intro m
  induction m with
  | nil =>
    intro acc
    exact le_refl _
  | cons e rest ih =>
    intro acc
    rw [List.foldl_cons]
    exact le_trans (le_max_left _ _) (ih _)

theorem patLcpLen_mem_le {T : Type} (bk : List Nat) :
    ∀ (m : PatMap T) (acc : Nat) (e : List Nat × T), e ∈ m →
      lcpLen bk e.1 ≤ m.foldl (fun acc e => max acc (lcpLen bk e.1)) acc := by
  intro m
  induction m with
  | nil =>
    intro acc e he
    simp at he
  | cons e0 rest ih =>
    intro acc e he
    rw [List.foldl_cons]
    rcases List.mem_cons.mp he with rfl | hmem
    · exact le_trans (le_max_right _ _) (patLcpLen_acc_le bk rest _)
    · exact ih _ e hmem

theorem patLcpLen_attained {T : Type} (bk : List Nat) :
    ∀ (m : PatMap T) (acc n : Nat),
      m.foldl (fun acc e => max acc (lcpLen bk e.1)) acc = n → acc ≠ n →
      ∃ e ∈ m, lcpLen bk e.1 = n := by
  intro m
  induction m with
  | nil =>
    intro acc n h hne
    exact absurd h hne
  | cons e rest ih =>
    intro acc n h hne
    rw [List.foldl_cons] at h
    by_cases hacc : max acc (lcpLen bk e.1) = n
    · rcases max_choice acc (lcpLen bk e.1) with hm | hm <;> rw [hm] at hacc
      · exact absurd hacc hne
      · exact ⟨e, List.mem_cons_self _ _, hacc⟩
    · obtain ⟨e', he', hp⟩ := ih _ n h hacc
      exact ⟨e', List.mem_cons_of_mem _ he', hp⟩

theorem ancestor_exists_iff {T : Type} (t : Trie T) (key : TrieKey) :
    t.ancestor_exists key = true ↔ ∃ e ∈ t.inner, e.1 <+: castSlice key := by
  unfold Trie.ancestor_exists
  exact patGetLCP_isSome_iff t.inner (castSlice key)

theorem descendant_exists_iff {T : Type} (t : Trie T) (key : TrieKey)
    (hk : key ≠ []) :
    t.descendant_exists key = true ↔ ∃ e ∈ t.inner, castSlice key <+: e.1 := by
  unfold Trie.descendant_exists patLcpLen
  rw [decide_eq_true_iff]
  have hcl : (castSlice key).length = key_len key := castSlice_length key
  constructor
  · intro h
    have h0 : (0 : Nat) ≠ key_len key := by
      have hlen : key.length ≠ 0 := fun hh => hk (List.length_eq_zero.mp hh)
      unfold key_len
      omega
    obtain ⟨e, he, hlen⟩ :=
      patLcpLen_attained (castSlice key) t.inner 0 (key_len key) h h0
    refine ⟨e, he, ?_⟩
    exact (lcpLen_eq_length_iff _ _).mp (by omega)
  · rintro ⟨e, he, hp⟩
    have hle := patLcpLen_le (castSlice key) t.inner 0 (Nat.zero_le _)
    have hge := patLcpLen_mem_le (castSlice key) t.inner 0 e he
    have hlen : lcpLen (castSlice key) e.1 = (castSlice key).length :=
      (lcpLen_eq_length_iff _ _).mpr hp
    omega

theorem descendant_exists_nil {T : Type} (t : Trie T) :
    t.descendant_exists [] = true := by
  unfold Trie.descendant_exists patLcpLen
  rw [decide_eq_true_iff]
  have hle := patLcpLen_le (castSlice []) t.inner 0 (Nat.zero_le _)
  have h0 : (castSlice ([] : TrieKey)).length = 0 := rfl
  have h1 : key_len ([] : TrieKey) = 0 := rfl
  show List.foldl (fun acc e => max acc (lcpLen (castSlice []) e.1)) 0 t.inner =
    key_len []
  omega

/-- Claim C9 (amended): for every trie whose entries are byte-packed
encodings of `u16` keys and every `u16` key `k`: `ancestor_exists k` is
true iff some inserted key is a prefix of, or equal to, `k`; and for
nonempty `k`, `descendant_exists k` is true iff some inserted key has `k`
as a prefix (including `k` itself).  For the empty key,
`descendant_exists []` is unconditionally true — even on the empty trie,
where no inserted key exists (`longest_common_prefix_len` returns `0`,
which equals the empty key's byte length), so the original claim's
"for every k including the empty key" fails there. -/
theorem c9_ancestor_descendant_amended :
    ∀ (T : Type) (t : Trie T),
      (∀ e ∈ t.inner, ∃ w, U16Key w ∧ e.1 = castSlice w) →
      ∀ key : TrieKey, U16Key key →
        (t.ancestor_exists key = true ↔
          ∃ e ∈ t.inner, ∃ w, U16Key w ∧ e.1 = castSlice w ∧ w <+: key)
        ∧ (key ≠ [] →
            (t.descendant_exists key = true ↔
              ∃ e ∈ t.inner, ∃ w, U16Key w ∧ e.1 = castSlice w ∧ key <+: w))
        ∧ t.descendant_exists [] = true := by
  intro T t hwf key hk
  refine ⟨?_, ?_, descendant_exists_nil t⟩
  · rw [ancestor_exists_iff]
    constructor
    · rintro ⟨e, he, hp⟩
      obtain ⟨w, hw, hew⟩ := hwf e he
      refine ⟨e, he, w, hw, hew, ?_⟩
      rw [hew] at hp
      exact castSlice_pre_cancel hw hk hp
    · rintro ⟨e, he, w, hw, hew, hp⟩
      refine ⟨e, he, ?_⟩
      rw [hew]
      exact castSlice_mono hp
  · intro hne
    rw [descendant_exists_iff t key hne]
    constructor
    · rintro ⟨e, he, hp⟩
      obtain ⟨w, hw, hew⟩ := hwf e he
      refine ⟨e, he, w, hw, hew, ?_⟩
      rw [hew] at hp
      exact castSlice_pre_cancel hk hw hp
    · rintro ⟨e, he, w, hw, hew, hp⟩
      refine ⟨e, he, ?_⟩
      rw [hew]
      exact castSlice_mono hp

/-- Claim C9, counterexample: on the empty trie (no inserted keys at all),
`descendant_exists` applied to the empty key returns `true`, although no
inserted key has the empty key as a prefix — the byte-level
longest-common-prefix length is `0`, which equals the empty key's byte
length. -/
theorem c9_empty_key_counterexample :
    (Trie.new : Trie Nat).descendant_exists [] = true
    ∧ (Trie.new : Trie Nat).inner = [] := by
  decide

/-- Witness for C9: in the trie holding exactly the key `[3]`,
`ancestor_exists [3, 5]` is true (the inserted key `[3]` is a prefix of
`[3, 5]`) and `descendant_exists [3]` is true (the inserted key `[3]`
extends `[3]`). -/
theorem c9_ancestor_descendant_witness :
    ((Trie.new : Trie Nat).insert [3] 0).ancestor_exists [3, 5] = true
    ∧ ((Trie.new : Trie Nat).insert [3] 0).descendant_exists [3] = true := by
  have h1 : ((Trie.new : Trie Nat).insert [3] 0).inner = [([3, 0], 0)] := rfl
  have hwf : ∀ e ∈ ((Trie.new : Trie Nat).insert [3] 0).inner,
      ∃ w, U16Key w ∧ e.1 = castSlice w := by
    intro e he
    rw [h1, List.mem_singleton] at he
    subst he
    exact ⟨[3], by decide, rfl⟩
  constructor
  · exact (c9_ancestor_descendant_amended Nat _ hwf [3, 5] (by decide)).1.mpr
      ⟨([3, 0], 0), by decide, [3], by decide, rfl, ⟨[5], rfl⟩⟩
  · exact ((c9_ancestor_descendant_amended Nat _ hwf [3] (by decide)).2.1
      (by decide)).mpr
      ⟨([3, 0], 0), by decide, [3], by decide, rfl, List.prefix_rfl⟩

end Kanata
